import Mathlib

/-!
Shallow embedding of the fofc-rs binary container codec (src/lib.rs).

Bytes are modelled as natural numbers; a Rust byte buffer is a `List Nat`.
Rust strings appear on the wire as their UTF-8 bytes, so `comment` and file
names are modelled directly as byte lists. Unsigned 64-bit arithmetic wraps
modulo `2 ^ 64`, written explicitly with `% u64Mod`. Fallible decoding is
modelled with `Except FormatError`.
-/

namespace Fofc

/-- A named blob owned by a Container (struct `File` in src/lib.rs):
a name (its UTF-8 bytes) and raw content bytes. -/
structure File where
  name : List Nat
  content : List Nat
deriving DecidableEq, Repr

/-- The root aggregate (struct `Container` in src/lib.rs). -/
structure Container where
  comment : List Nat
  x : Nat
  y : Nat
  z : Nat
  files : List File
deriving DecidableEq, Repr

/-- `pub const Y_DIFFERENCE: u64 = 43`. -/
def Y_DIFFERENCE : Nat := 43

/-- `pub const Z_DIFFERENCE: u64 = 34`. -/
def Z_DIFFERENCE : Nat := 34

/-- `pub const MAGIC_NUMBER: u8 = 0x46`. -/
def MAGIC_NUMBER : Nat := 0x46

/-- The modulus of `u64` arithmetic. -/
def u64Mod : Nat := 2 ^ 64

/-- Decode failures surfaced by `Container::from_bytes`: `badMagic` for the
"invalid or incorrect magic number" error, `truncated` for the I/O error a
cursor read returns when the buffer is exhausted. -/
inductive FormatError where
  | badMagic
  | truncated
deriving DecidableEq, Repr

/-- A cursor-based byte parser: the remaining bytes in, a value and the
remaining bytes out, or a decode failure. -/
abbrev Parser (α : Type) : Type := List Nat → Except FormatError (α × List Nat)

/-- Sequencing of cursor reads: run `P`, then `f` on what is left
(the `?` chaining in the Rust code). -/
def pbind {α β : Type} (P : Parser α) (f : α → Parser β) : Parser β := fun bs =>
  match P bs with
  | .error e => .error e
  | .ok (a, rest) => f a rest

/-- `cursor.read_u8()`: one byte, or an exhausted-buffer error. -/
def readU8 : Parser Nat := fun bs =>
  match bs with
  | [] => .error .truncated
  | b :: rest => .ok (b, rest)

/-- `read_string_until_0x00`: scan bytes until a `0x00` sentinel; the
sentinel is consumed but not part of the result. Exhausting the buffer
before a sentinel is the cursor's truncation error. (The Rust function
then converts the bytes with `String::from_utf8_lossy`; on the valid UTF-8
bytes a Rust `String` serializes to, that conversion is the identity, so the
model keeps the raw bytes.) -/
def read_string_until_0x00 : Parser (List Nat)
  | [] => .error .truncated
  | b :: rest =>
    if b = 0 then .ok ([], rest)
    else
      match read_string_until_0x00 rest with
      | .error e => .error e
      | .ok (s, r) => .ok (b :: s, r)

/-- `cursor.read_exact` into an `n`-byte buffer: exactly `n` bytes or the
truncation error. -/
def readExact (n : Nat) : Parser (List Nat) := fun bs =>
  if n ≤ bs.length then .ok (bs.take n, bs.drop n) else .error .truncated

/-- The value of a little-endian byte list (first byte least significant). -/
def leValue : List Nat → Nat
  | [] => 0
  | b :: rest => b + 256 * leValue rest

/-- The `n` little-endian bytes of `v` (`write_u64`/`write_u16` with
`n = 8`/`n = 2`; the `as u16` / `as u64` casts are the implicit
`% 256 ^ n` this byte extraction performs). -/
def leBytes : Nat → Nat → List Nat
  | 0, _ => []
  | n + 1, v => v % 256 :: leBytes n (v / 256)

/-- `cursor.read_u64::<LittleEndian>()` / `read_u16` for `n = 8` / `n = 2`:
read `n` bytes and assemble them little-endian. -/
def readLE (n : Nat) : Parser Nat :=
  pbind (readExact n) fun chunk => fun bs => .ok (leValue chunk, bs)

/-- The bytes `to_bytes` writes for one file record:
name, `0x00` sentinel, 8-byte little-endian content length, content. -/
def encFile (f : File) : List Nat :=
  f.name ++ [0] ++ leBytes 8 f.content.length ++ f.content

/-- The concatenated records of a file list, in sequence order. -/
def encFiles : List File → List Nat
  | [] => []
  | f :: fs => encFile f ++ encFiles fs

/-- The decode loop `for _ in 1..=file_count`: read `count` file records,
each a sentinel-terminated name, an 8-byte length, then that many
content bytes. -/
def readFiles : Nat → Parser (List File)
  | 0 => fun bs => .ok ([], bs)
  | n + 1 =>
    pbind read_string_until_0x00 fun name =>
    pbind (readLE 8) fun len =>
    pbind (readExact len) fun content =>
    pbind (readFiles n) fun fs => fun bs =>
    .ok (⟨name, content⟩ :: fs, bs)

/-- The whole decode as a cursor parser: magic byte (else `badMagic`),
comment, `x` (with `y`/`z` rederived, wrapping mod `2 ^ 64`), 16-bit file
count, then the file records. -/
def parseContainer : Parser Container :=
  pbind readU8 fun m =>
  if m = MAGIC_NUMBER then
    pbind read_string_until_0x00 fun comment =>
    pbind (readLE 8) fun x =>
    pbind (readLE 2) fun file_count =>
    pbind (readFiles file_count) fun files => fun bs =>
    .ok ({ comment := comment, x := x,
           y := (x + Y_DIFFERENCE) % u64Mod,
           z := (x + Z_DIFFERENCE) % u64Mod,
           files := files }, bs)
  else fun _ => .error .badMagic

/-- `Container::from_bytes`: run the cursor parse on the buffer; trailing
bytes after the last file are ignored. -/
def Container.from_bytes (bs : List Nat) : Except FormatError Container :=
  match parseContainer bs with
  | .ok (c, _) => .ok c
  | .error e => .error e

/-- `Container::to_bytes`: magic byte, comment + sentinel, 8-byte
little-endian `x`, 2-byte little-endian file count (`files.len() as u16`),
then every file record in order. (The Rust version returns `Result` but
writing to a `Vec` never fails, so the model is total.) -/
def Container.to_bytes (c : Container) : List Nat :=
  MAGIC_NUMBER ::
    (c.comment ++ [0] ++ leBytes 8 c.x ++ leBytes 2 c.files.length ++ encFiles c.files)

/-- `Container::new`: fresh container from a comment and the clock value `x`
(a `u64`), with `y`/`z` derived (wrapping mod `2 ^ 64`) and no files. -/
def Container.new (comment : List Nat) (x : Nat) : Container :=
  { comment := comment, x := x,
    y := (x + Y_DIFFERENCE) % u64Mod,
    z := (x + Z_DIFFERENCE) % u64Mod,
    files := [] }

/-- `Container::add_file`: append to the end of the file list. -/
def Container.add_file (c : Container) (f : File) : Container :=
  { c with files := c.files ++ [f] }

/-- `Container::remove_file`: keep exactly the files whose name differs from
the given name. -/
def Container.remove_file (c : Container) (name : List Nat) : Container :=
  { c with files := c.files.filter fun f => f.name ≠ name }

/-- `Container::get_file`: first file with the given name, if any. -/
def Container.get_file (c : Container) (name : List Nat) : Option File :=
  c.files.find? fun f => f.name = name

/-- No `0x00` byte occurs in the list (the sentinel-freedom precondition on
comments and file names). -/
abbrev NoNul (l : List Nat) : Prop := ∀ b ∈ l, b ≠ 0

/-- The spec's concrete scenario: comment `"hi"` (bytes `68 69`), `x = 1000`,
one file `"a.txt"` (bytes `61 2E 74 78 74`) with content `[1, 2, 3]`. -/
def sampleC : Container :=
  { comment := [0x68, 0x69], x := 1000, y := 1043, z := 1034,
    files := [{ name := [0x61, 0x2E, 0x74, 0x78, 0x74], content := [1, 2, 3] }] }

/-- The spec's expected encoding of `sampleC`. -/
def sampleBytes : List Nat :=
  [0x46, 0x68, 0x69, 0x00, 0xE8, 0x03, 0x00, 0x00, 0x00, 0x00, 0x00, 0x00,
   0x01, 0x00, 0x61, 0x2E, 0x74, 0x78, 0x74, 0x00,
   0x03, 0x00, 0x00, 0x00, 0x00, 0x00, 0x00, 0x00, 0x01, 0x02, 0x03]

/-- An encoding carrying `x = 2 ^ 64 - 1`, so that rederiving `y` and `z`
wraps: empty comment, eight `0xFF` bytes for `x`, zero files. -/
def wrapBytes : List Nat :=
  [0x46, 0x00, 0xFF, 0xFF, 0xFF, 0xFF, 0xFF, 0xFF, 0xFF, 0xFF, 0x00, 0x00]

/-- The container `wrapBytes` decodes to: `y` and `z` wrap to `42` and `33`. -/
def wrapC : Container :=
  { comment := [], x := 2 ^ 64 - 1, y := 42, z := 33, files := [] }

/-- A container with an empty file list. -/
def emptyC : Container :=
  { comment := [], x := 0, y := 43, z := 34, files := [] }

/-- An arbitrary concrete file. -/
def probeFile : File := { name := [1], content := [2] }

/-- A container with 65536 files, one more than the 16-bit count can hold. -/
def bigC : Container :=
  { comment := [], x := 0, y := 43, z := 34,
    files := List.replicate 65536 { name := [], content := [] } }

/-- `P` consumes exactly the bytes `l` producing `v`: on `l` followed by
anything it succeeds with `v` leaving exactly the rest, and on every strict
prefix of `l` it fails with the truncation error. -/
def Consumes {α : Type} (P : Parser α) (l : List Nat) (v : α) : Prop :=
  (∀ r, P (l ++ r) = .ok (v, r)) ∧
  (∀ k, k < l.length → P (l.take k) = .error .truncated)

theorem Consumes.ok {α : Type} {P : Parser α} {l : List Nat} {v : α}
    (h : Consumes P l v) (r : List Nat) : P (l ++ r) = .ok (v, r) := h.1 r

theorem Consumes.trunc {α : Type} {P : Parser α} {l : List Nat} {v : α}
    (h : Consumes P l v) {k : Nat} (hk : k < l.length) :
    P (l.take k) = .error .truncated := h.2 k hk

/-- Sequencing preserves exact consumption: if `P` consumes `l` giving `v`
and the continuation at `v` consumes `m` giving `w`, their sequence
consumes `l ++ m` giving `w`. -/
theorem consumes_pbind {α β : Type} {P : Parser α} {f : α → Parser β}
    {l m : List Nat} {v : α} {w : β}
    (hP : Consumes P l v) (hf : Consumes (f v) m w) :
    Consumes (pbind P f) (l ++ m) w := by
  constructor
  · intro r
    rw [List.append_assoc]
    simp only [pbind, hP.ok (m ++ r), hf.ok r]
  · intro k hk
    rcases Nat.lt_or_ge k l.length with h | h
    · rw [List.take_append_eq_append_take, Nat.sub_eq_zero_of_le h.le,
        List.take_zero, List.append_nil]
      simp only [pbind, hP.trunc h]
    · rw [List.take_append_eq_append_take, List.take_of_length_le h]
      have hk' : k - l.length < m.length := by
        simp only [List.length_append] at hk; omega
      simp only [pbind, hP.ok (m.take (k - l.length)), hf.trunc hk']

/-- A parser that consumes nothing and returns `v`. -/
theorem consumes_pure {α : Type} (v : α) :
    Consumes (fun bs => .ok (v, bs)) [] v := by
  refine ⟨fun r => rfl, fun k hk => absurd hk (by simp)⟩

theorem consumes_readU8 (b : Nat) : Consumes readU8 [b] b := by
  refine ⟨fun r => rfl, fun k hk => ?_⟩
  have hk1 : k < 1 := by simpa using hk
  have hk0 : k = 0 := by omega
  subst hk0
  rfl

/-- On a sentinel-free buffer the string scan runs off the end. -/
theorem read_string_nonul {p : List Nat} (h : NoNul p) :
    read_string_until_0x00 p = .error .truncated := by
  induction p with
  | nil => rfl
  | cons b rest ih =>
    have hb : b ≠ 0 := h b (by simp)
    have : NoNul rest := fun c hc => h c (by simp [hc])
    simp [read_string_until_0x00, hb, ih this]

theorem consumes_read_string {s : List Nat} (h : NoNul s) :
    Consumes read_string_until_0x00 (s ++ [0]) s := by
  constructor
  · intro r
    induction s with
    | nil => rfl
    | cons b rest ih =>
      have hb : b ≠ 0 := h b (by simp)
      have hrest : NoNul rest := fun c hc => h c (by simp [hc])
      simp only [List.cons_append, read_string_until_0x00, if_neg hb,
        List.append_eq, ih hrest]
  · intro k hk
    have hlen : k ≤ s.length := by
      simp only [List.length_append, List.length_cons, List.length_nil] at hk
      omega
    rw [List.take_append_eq_append_take, Nat.sub_eq_zero_of_le hlen,
      List.take_zero, List.append_nil]
    exact read_string_nonul fun b hb => h b (List.mem_of_mem_take hb)

theorem consumes_readExact {l : List Nat} {n : Nat} (h : l.length = n) :
    Consumes (readExact n) l l := by
  constructor
  · intro r
    simp [readExact, ← h, List.take_left' rfl, List.drop_left' rfl]
  · intro k hk
    have hn : ¬ n ≤ (l.take k).length := by
      rw [List.length_take]; omega
    simp only [readExact, if_neg hn]

theorem length_leBytes (n v : Nat) : (leBytes n v).length = n := by
  induction n generalizing v with
  | zero => rfl
  | succ n ih => simp [leBytes, ih]

theorem leValue_leBytes (n v : Nat) : leValue (leBytes n v) = v % 256 ^ n := by
  induction n generalizing v with
  | zero => simp [leBytes, leValue, Nat.mod_one]
  | succ n ih =>
    rw [leBytes, leValue, ih, pow_succ, mul_comm (256 ^ n) 256, Nat.mod_mul]

theorem consumes_readLE (n v : Nat) :
    Consumes (readLE n) (leBytes n v) (v % 256 ^ n) := by
  rw [show leBytes n v = leBytes n v ++ [] by simp, ← leValue_leBytes]
  exact consumes_pbind (consumes_readExact (length_leBytes n v))
    (consumes_pure _)

/-- The decode loop consumes exactly the concatenated file records and
reproduces the file list, provided names are sentinel-free and content
lengths fit in a `u64`. -/
theorem consumes_readFiles {fs : List File}
    (hname : ∀ f ∈ fs, NoNul f.name)
    (hlen : ∀ f ∈ fs, f.content.length < u64Mod) :
    Consumes (readFiles fs.length) (encFiles fs) fs := by
  induction fs with
  | nil => exact consumes_pure []
  | cons f fs ih =>
    have h1 : NoNul f.name := hname f (by simp)
    have h2 : f.content.length < u64Mod := hlen f (by simp)
    have ihc : Consumes (readFiles fs.length) (encFiles fs) fs :=
      ih (fun g hg => hname g (by simp [hg])) (fun g hg => hlen g (by simp [hg]))
    have hmod : f.content.length % 256 ^ 8 = f.content.length :=
      Nat.mod_eq_of_lt (by simpa [u64Mod] using h2)
    have step :
        Consumes (readFiles (fs.length + 1))
          ((f.name ++ [0]) ++ (leBytes 8 f.content.length ++
            (f.content ++ (encFiles fs ++ [])))) (f :: fs) := by
      refine consumes_pbind (consumes_read_string h1) ?_
      refine consumes_pbind (consumes_readLE 8 f.content.length) ?_
      rw [hmod]
      refine consumes_pbind (consumes_readExact rfl) ?_
      exact consumes_pbind ihc (consumes_pure _)
    simpa [encFiles, encFile, List.length_cons] using step

/-- Master round-trip lemma: on a container whose comment and file names are
sentinel-free, whose file count fits the 16-bit field, whose content
lengths fit a `u64`, and whose `y`/`z` are the derived values, the decode
parser consumes exactly the encoding and reproduces the container. -/
theorem consumes_parseContainer {c : Container}
    (hcom : NoNul c.comment)
    (hname : ∀ f ∈ c.files, NoNul f.name)
    (hlen : ∀ f ∈ c.files, f.content.length < u64Mod)
    (hcount : c.files.length ≤ 65535)
    (hy : c.y = c.x + Y_DIFFERENCE)
    (hz : c.z = c.x + Z_DIFFERENCE)
    (hy64 : c.y < u64Mod) :
    Consumes parseContainer c.to_bytes c := by
  obtain ⟨comment, x, y, z, files⟩ := c
  simp only at hcom hname hlen hcount hy hz hy64
  subst hy
  subst hz
  have e8 : u64Mod = 256 ^ 8 := by norm_num [u64Mod]
  have hm1 : (x + Y_DIFFERENCE) % u64Mod = x + Y_DIFFERENCE :=
    Nat.mod_eq_of_lt hy64
  have hm2 : (x + Z_DIFFERENCE) % u64Mod = x + Z_DIFFERENCE :=
    Nat.mod_eq_of_lt (by simp only [Y_DIFFERENCE, Z_DIFFERENCE] at hy64 ⊢; omega)
  have h8 : x % 256 ^ 8 = x := by
    rw [← e8]
    exact Nat.mod_eq_of_lt (by simp only [Y_DIFFERENCE] at hy64; omega)
  have h2 : files.length % 256 ^ 2 = files.length :=
    Nat.mod_eq_of_lt (Nat.lt_of_le_of_lt hcount (by norm_num))
  have step :
      Consumes parseContainer
        ([MAGIC_NUMBER] ++ ((comment ++ [0]) ++ (leBytes 8 x ++
          (leBytes 2 files.length ++ (encFiles files ++ [])))))
        ⟨comment, x, x + Y_DIFFERENCE, x + Z_DIFFERENCE, files⟩ := by
    refine consumes_pbind (consumes_readU8 MAGIC_NUMBER) ?_
    rw [if_pos rfl]
    refine consumes_pbind (consumes_read_string hcom) ?_
    have hx8 := consumes_readLE 8 x
    rw [h8] at hx8
    refine consumes_pbind hx8 ?_
    have hc2 := consumes_readLE 2 files.length
    rw [h2] at hc2
    refine consumes_pbind hc2 ?_
    refine consumes_pbind (consumes_readFiles hname hlen) ?_
    rw [hm1, hm2]
    exact consumes_pure _
  simpa [Container.to_bytes, List.append_assoc] using step

/-- Inversion of parser sequencing. -/
theorem pbind_ok {α β : Type} {P : Parser α} {f : α → Parser β}
    {bs : List Nat} {r : β × List Nat} :
    pbind P f bs = .ok r ↔
      ∃ a rest, P bs = .ok (a, rest) ∧ f a rest = .ok r := by
  unfold pbind
  cases hP : P bs with
  | error e => simp
  | ok p =>
    obtain ⟨a, rest⟩ := p
    simp only [Except.ok.injEq, Prod.mk.injEq]
    constructor
    · intro h
      exact ⟨a, rest, ⟨rfl, rfl⟩, h⟩
    · rintro ⟨a1, r1, ⟨h1, h2⟩, h⟩
      rw [h1, h2]
      exact h

/-- C1: for every Container whose comment contains no 0x00 byte, whose file
count is at most 65535, whose file names contain no 0x00 byte, and whose
fields satisfy `y = x + 43` and `z = x + 34` (as u64 values, so in
particular in range), decoding the encoding succeeds and reproduces the
comment, `x`, `y`, `z`, and the exact ordered list of files. -/
theorem C1_decode_encode_roundtrip (c : Container)
    (hcom : NoNul c.comment)
    (hname : ∀ f ∈ c.files, NoNul f.name)
    (hlen : ∀ f ∈ c.files, f.content.length < u64Mod)
    (hcount : c.files.length ≤ 65535)
    (hy : c.y = c.x + Y_DIFFERENCE)
    (hz : c.z = c.x + Z_DIFFERENCE)
    (hy64 : c.y < u64Mod) :
    Container.from_bytes c.to_bytes = .ok c := by
  have h := (consumes_parseContainer hcom hname hlen hcount hy hz hy64).ok []
  rw [List.append_nil] at h
  simp [Container.from_bytes, h]

/-- Witness for C1 at the spec's concrete sample container. -/
theorem C1_witness : Container.from_bytes sampleC.to_bytes = .ok sampleC :=
  C1_decode_encode_roundtrip sampleC (by decide) (by decide) (by decide)
    (by decide) (by decide) (by decide) (by decide)

/-- C2: fresh construction and decoding both derive `y` and `z` from `x` as
`x + 43` and `x + 34` in wrapping u64 arithmetic, for every input `x`,
including `x > 2 ^ 64 - 43` where the sum wraps. -/
theorem C2_derived_field_invariant :
    (∀ (comment : List Nat) (x : Nat),
      (Container.new comment x).y =
        ((Container.new comment x).x + Y_DIFFERENCE) % u64Mod ∧
      (Container.new comment x).z =
        ((Container.new comment x).x + Z_DIFFERENCE) % u64Mod) ∧
    (∀ (bs : List Nat) (c : Container), Container.from_bytes bs = .ok c →
      c.y = (c.x + Y_DIFFERENCE) % u64Mod ∧
      c.z = (c.x + Z_DIFFERENCE) % u64Mod) := by
  constructor
  · exact fun comment x => ⟨rfl, rfl⟩
  · intro bs c h
    unfold Container.from_bytes at h
    cases hp : parseContainer bs with
    | error e => rw [hp] at h; exact absurd h (by simp)
    | ok p =>
      obtain ⟨c', rest⟩ := p
      rw [hp] at h
      simp only [Except.ok.injEq] at h
      subst h
      unfold parseContainer at hp
      rw [pbind_ok] at hp
      obtain ⟨m, rest1, _, hp⟩ := hp
      by_cases hmm : m = MAGIC_NUMBER
      · rw [if_pos hmm, pbind_ok] at hp
        obtain ⟨comment, rest2, _, hp⟩ := hp
        rw [pbind_ok] at hp
        obtain ⟨x, rest3, _, hp⟩ := hp
        rw [pbind_ok] at hp
        obtain ⟨count, rest4, _, hp⟩ := hp
        rw [pbind_ok] at hp
        obtain ⟨files, rest5, _, hp⟩ := hp
        simp only [Except.ok.injEq, Prod.mk.injEq] at hp
        rw [← hp.1]
        exact ⟨rfl, rfl⟩
      · rw [if_neg hmm] at hp
        exact absurd hp (by simp)

/-- Witness for C2 at an encoding carrying `x = 2 ^ 64 - 1`, where the
derived `y` and `z` wrap to `42` and `33`. -/
theorem C2_witness :
    wrapC.y = (wrapC.x + Y_DIFFERENCE) % u64Mod ∧
    wrapC.z = (wrapC.x + Z_DIFFERENCE) % u64Mod :=
  C2_derived_field_invariant.2 wrapBytes wrapC (by rfl)

/-- C3: encoding the sample container (`"hi"`, `x = 1000`, one file
`"a.txt"` with content `[1, 2, 3]`) yields exactly the 31 bytes the spec
lists, and decoding those bytes yields exactly that container
(`x = 1000`, `y = 1043`, `z = 1034`, the single file). -/
theorem C3_concrete_scenario :
    sampleC.to_bytes = sampleBytes ∧
    Container.from_bytes sampleBytes = .ok sampleC :=
  ⟨rfl, rfl⟩

/-- C4: decoding any non-empty buffer whose first byte is not `0x46` fails
with the bad-magic error, whatever the remaining bytes are. -/
theorem C4_bad_magic (b : Nat) (rest : List Nat) (hb : b ≠ MAGIC_NUMBER) :
    Container.from_bytes (b :: rest) = .error .badMagic := by
  simp [Container.from_bytes, parseContainer, pbind, readU8, if_neg hb]

/-- Witness for C4 at first byte `0x45`. -/
theorem C4_witness :
    Container.from_bytes [0x45, 0x68, 0x69] = .error .badMagic :=
  C4_bad_magic 0x45 [0x68, 0x69] (by decide)

/-- C5: for every container satisfying the round-trip preconditions and
every `N` with `1 ≤ N <` the encoding's length, decoding the encoding with
its last `N` bytes removed fails with the truncation error. -/
theorem C5_truncation_detected (c : Container) (N : Nat)
    (hcom : NoNul c.comment)
    (hname : ∀ f ∈ c.files, NoNul f.name)
    (hlen : ∀ f ∈ c.files, f.content.length < u64Mod)
    (hcount : c.files.length ≤ 65535)
    (hy : c.y = c.x + Y_DIFFERENCE)
    (hz : c.z = c.x + Z_DIFFERENCE)
    (hy64 : c.y < u64Mod)
    (hN1 : 1 ≤ N) (hN2 : N < c.to_bytes.length) :
    Container.from_bytes (c.to_bytes.take (c.to_bytes.length - N)) =
      .error .truncated := by
  have h := (consumes_parseContainer hcom hname hlen hcount hy hz hy64).trunc
    (k := c.to_bytes.length - N) (by omega)
  simp [Container.from_bytes, h]

/-- Witness for C5: the sample encoding with its last byte removed. -/
theorem C5_witness :
    Container.from_bytes
      (sampleC.to_bytes.take (sampleC.to_bytes.length - 1)) =
      .error .truncated :=
  C5_truncation_detected sampleC 1 (by decide) (by decide) (by decide)
    (by decide) (by decide) (by decide) (by decide) (by decide) (by decide)

/-- The encoded file records have the summed per-record lengths. -/
theorem length_encFiles (fs : List File) :
    (encFiles fs).length =
      (fs.map fun f => f.name.length + 1 + 8 + f.content.length).sum := by
  induction fs with
  | nil => rfl
  | cons f fs ih =>
    simp only [encFiles, encFile, List.length_append, List.map_cons,
      List.sum_cons, ih, length_leBytes, List.length_cons, List.length_nil]

/-- C6: encoding always succeeds and the buffer's length is exactly
`1 + len(comment) + 1 + 8 + 2` plus the sum over the files of
`len(name) + 1 + 8 + len(content)`. -/
theorem C6_to_bytes_length (c : Container) :
    c.to_bytes.length =
      1 + c.comment.length + 1 + 8 + 2 +
        (c.files.map fun f => f.name.length + 1 + 8 + f.content.length).sum := by
  simp only [Container.to_bytes, List.length_cons, List.length_append,
    length_leBytes, length_encFiles, List.length_cons, List.length_nil]
  omega

/-- C7: `remove_file` removes every file whose name matches (none remains),
is the identity when no file matches, and after adding one file to an empty
list removing its name returns the list to empty. -/
theorem C7_remove_file_semantics (c : Container) (name : List Nat) (f : File) :
    (∀ g ∈ (c.remove_file name).files, g.name ≠ name) ∧
    ((∀ g ∈ c.files, g.name ≠ name) → c.remove_file name = c) ∧
    (c.files = [] → ((c.add_file f).remove_file f.name).files = []) := by
  refine ⟨?_, ?_, ?_⟩
  · intro g hg
    simp only [Container.remove_file, List.mem_filter, decide_eq_true_eq] at hg
    exact hg.2
  · intro h
    have hfil : c.files.filter (fun g => !decide (g.name = name)) = c.files :=
      List.filter_eq_self.mpr fun g hg => by simpa using h g hg
    simp [Container.remove_file, hfil]
  · intro h
    simp [Container.add_file, Container.remove_file, h]

/-- Witness for C7: a concrete empty container with a concrete file. -/
theorem C7_witness :
    (emptyC.remove_file [3] = emptyC) ∧
    ((emptyC.add_file probeFile).remove_file probeFile.name).files = [] :=
  ⟨(C7_remove_file_semantics emptyC [3] probeFile).2.1 (by decide),
   (C7_remove_file_semantics emptyC [3] probeFile).2.2 (by decide)⟩

/-- C8: when the file list is longer than 65535, the 16-bit count field of
the encoding decodes to the true count reduced modulo 2 ^ 16 — not the true
count, and not an error — while the rest of the buffer still carries every
file record in order. -/
theorem C8_count_silently_truncated (c : Container)
    (h : 65535 < c.files.length) :
    readLE 2 (c.to_bytes.drop (1 + c.comment.length + 1 + 8)) =
      .ok (c.files.length % 65536, encFiles c.files) ∧
    c.files.length % 65536 ≠ c.files.length := by
  constructor
  · have hsplit : c.to_bytes =
        (MAGIC_NUMBER :: (c.comment ++ [0] ++ leBytes 8 c.x)) ++
          (leBytes 2 c.files.length ++ encFiles c.files) := by
      simp [Container.to_bytes]
    rw [hsplit, List.drop_left' (by
      simp only [List.length_cons, List.length_append, List.length_singleton,
        List.length_nil, length_leBytes]
      omega)]
    have hread := (consumes_readLE 2 c.files.length).ok (encFiles c.files)
    have h2 : (256 : Nat) ^ 2 = 65536 := by norm_num
    rw [h2] at hread
    exact hread
  · have := Nat.mod_lt c.files.length (show 0 < 65536 by norm_num)
    omega

/-- Witness for C8 at a container with 65536 files (count field wraps
to 0). -/
theorem C8_witness :
    readLE 2 (bigC.to_bytes.drop (1 + bigC.comment.length + 1 + 8)) =
      .ok (bigC.files.length % 65536, encFiles bigC.files) ∧
    bigC.files.length % 65536 ≠ bigC.files.length :=
  C8_count_silently_truncated bigC
    (by simp only [bigC, List.length_replicate]; omega)

/-- C9: decoding the empty buffer fails with the truncation error — the
first one-byte read already exhausts the buffer, so the magic check is
never reached. -/
theorem C9_empty_buffer_truncated :
    Container.from_bytes [] = .error .truncated := rfl

/-- C10: `remove_file` leaves `comment`, `x`, `y`, `z` unchanged and keeps
the remaining files in their relative order (a sublist of the original
list); `add_file` changes nothing except appending the file at the end. -/
theorem C10_accessor_frame (c : Container) (name : List Nat) (f : File) :
    (c.remove_file name).comment = c.comment ∧
    (c.remove_file name).x = c.x ∧
    (c.remove_file name).y = c.y ∧
    (c.remove_file name).z = c.z ∧
    List.Sublist (c.remove_file name).files c.files ∧
    (c.add_file f).comment = c.comment ∧
    (c.add_file f).x = c.x ∧
    (c.add_file f).y = c.y ∧
    (c.add_file f).z = c.z ∧
    (c.add_file f).files = c.files ++ [f] :=
  ⟨rfl, rfl, rfl, rfl, List.filter_sublist c.files, rfl, rfl, rfl, rfl, rfl⟩

end Fofc
